import Mathlib

/-!
Shallow embedding of the decision-tree induction program in
SDLC_identifier.py: impurity computation (gini), dataset partitioning,
exhaustive best-split search and recursive tree construction, together
with proofs of the specification claims about them.

A cell value is a tagged union of a number and a categorical label,
compared by a single equality test (spec section 9).  A row maps column
names to values; the label column is named "Model".
-/

inductive Value where
  | num (q : ℚ)
  | cat (s : String)
deriving DecidableEq

abbrev Row := List (String × Value)

/-- Reads the cell of row r in column c (rows of a dataset all share the
same column set, so the default is never exercised by the program). -/
def getCol (r : Row) (c : String) : Value :=
  match r.find? (fun p => decide (p.1 = c)) with
  | some p => p.2
  | none => Value.cat ""

structure Dataset where
  cols : List String
  rows : List Row
deriving DecidableEq

/-- The label of a row: the entry of the reserved column "Model". -/
def labelOf (r : Row) : Value := getCol r "Model"

/-- A split predicate: a (column, value) pair plus the dataset it was
formed from, exactly as the Question class stores them. -/
structure Question where
  df : Dataset
  col : String
  value : Value
deriving DecidableEq

/-- Question.match of the source: reads the stored dataset at row index
i in the stored column and compares with the stored value. -/
def Question.matchRow (q : Question) (i : ℕ) : Bool :=
  decide (getCol (q.df.rows.getD i []) q.col = q.value)

/-- Worker for dedupFirst: keeps a value only on its first appearance,
remembering in seen the values already emitted. -/
def dedupFirstAux (seen : List Value) : List Value → List Value
  | [] => []
  | v :: vs =>
    if v ∈ seen then dedupFirstAux seen vs
    else v :: dedupFirstAux (seen ++ [v]) vs

/-- unique_vals of the source: the distinct values of a column in first
appearance order (pandas unique). -/
def dedupFirst (l : List Value) : List Value := dedupFirstAux [] l

def unique_vals (df : Dataset) (col : String) : List Value :=
  dedupFirst (df.rows.map (fun r => getCol r col))

/-- One step of class_counts: insert the label with count 0 if absent,
then increment it (Python dicts keep insertion order). -/
def bump (counts : List (Value × ℕ)) (l : Value) : List (Value × ℕ) :=
  if counts.any (fun p => decide (p.1 = l)) then
    counts.map (fun p => if p.1 = l then (p.1, p.2 + 1) else p)
  else counts ++ [(l, 1)]

/-- class_counts of the source: occurrence count of each label over the
rows, keyed in first appearance order. -/
def class_counts (rows : List Row) : List (Value × ℕ) :=
  rows.foldl (fun c r => bump c (labelOf r)) []

/-- Does the row match the candidate question col == val. -/
def pMatch (col : String) (val : Value) (r : Row) : Bool :=
  decide (getCol r col = val)

/-- The row loop of partition: each row is appended to true_rows if it
matches the question, otherwise to false_rows. -/
def partLoop (col : String) (val : Value) :
    List Row → List Row × List Row → List Row × List Row
  | [], acc => acc
  | r :: rs, acc =>
    if pMatch col val r then partLoop col val rs (acc.1 ++ [r], acc.2)
    else partLoop col val rs (acc.1, acc.2 ++ [r])

/-- partition of the source: route every row by the equality test,
keeping the original row order in each side. -/
def partition (df : Dataset) (col : String) (val : Value) : Dataset × Dataset :=
  (⟨df.cols, (partLoop col val df.rows ([], [])).1⟩,
   ⟨df.cols, (partLoop col val df.rows ([], [])).2⟩)

/-- The loop of gini: starting from 1, subtract the squared label
probability for every counted label. -/
def giniOfCounts (counts : List (Value × ℕ)) (total : ℕ) : ℚ :=
  counts.foldl (fun impurity p => impurity - ((p.2 : ℚ) / (total : ℚ)) ^ 2) 1

/-- gini of the source: Gini impurity of a list of rows. -/
def gini (rows : List Row) : ℚ :=
  giniOfCounts (class_counts rows) rows.length

/-- gini with the division modelled as fallible: dividing by a zero row
count raises, exactly where the Python float division would. -/
def giniE (rows : List Row) : Except String ℚ :=
  (class_counts rows).foldlM
    (fun impurity p =>
      if rows.length = 0 then Except.error "ZeroDivisionError"
      else Except.ok (impurity - ((p.2 : ℚ) / (rows.length : ℚ)) ^ 2)) 1

/-- info_gain of the source: parent uncertainty minus the size-weighted
impurity of the two children. -/
def info_gain (left right : List Row) (current_uncertainty : ℚ) : ℚ :=
  current_uncertainty
    - ((left.length : ℚ) / ((left.length : ℚ) + (right.length : ℚ))) * gini left
    - (1 - (left.length : ℚ) / ((left.length : ℚ) + (right.length : ℚ))) * gini right

/-- The inner loop body of find_best_split: skip the candidate when a
partition side is empty, otherwise score it and take it as new best
when its gain reaches the running best (>= comparison). -/
def scanVal (df : Dataset) (cu : ℚ) (col : String)
    (s : ℚ × Option Question) (val : Value) : ℚ × Option Question :=
  if (partition df col val).1.rows.length = 0 ∨ (partition df col val).2.rows.length = 0 then s
  else if s.1 ≤ info_gain (partition df col val).1.rows (partition df col val).2.rows cu then
    (info_gain (partition df col val).1.rows (partition df col val).2.rows cu,
     some ⟨df, col, val⟩)
  else s

/-- The outer loop body of find_best_split: the label column is skipped,
any other column contributes one scan per distinct value. -/
def scanCol (df : Dataset) (cu : ℚ) (s : ℚ × Option Question) (col : String) :
    ℚ × Option Question :=
  if col = "Model" then s
  else (unique_vals df col).foldl (scanVal df cu col) s

/-- find_best_split of the source. -/
def find_best_split (df : Dataset) : ℚ × Option Question :=
  df.cols.foldl (scanCol df (gini df.rows)) ((0 : ℚ), (none : Option Question))

/-- The tree: a Leaf holds the class_counts of the rows that reached it,
a Decision node holds a question and two children. -/
inductive DTree where
  | leaf (predictions : List (Value × ℕ))
  | node (question : Question) (true_branch false_branch : DTree)
deriving DecidableEq

/-- build_tree of the source, with an explicit recursion budget: none is
returned only when the budget runs out or when the code would crash by
reading fields of a missing question (both are proved unreachable). -/
def build_tree_fuel : ℕ → Dataset → Option DTree
  | 0, _ => none
  | n + 1, df =>
    if (find_best_split df).1 = 0 then some (DTree.leaf (class_counts df.rows))
    else
      match (find_best_split df).2 with
      | none => none
      | some q =>
        match build_tree_fuel n (partition df q.col q.value).1,
              build_tree_fuel n (partition df q.col q.value).2 with
        | some tb, some fb => some (DTree.node q tb fb)
        | _, _ => none

/-- build_tree of the source: a budget of one more than the row count is
proved sufficient below. -/
def build_tree (df : Dataset) : Option DTree :=
  build_tree_fuel (df.rows.length + 1) df

/-- Occurrences of a label among the rows. -/
def countOf (rows : List Row) (l : Value) : ℕ :=
  rows.countP (fun r => decide (labelOf r = l))

/-- Sum of all leaf counts of a tree. -/
def leafSum : DTree → ℕ
  | DTree.leaf ps => (ps.map (fun p => p.2)).sum
  | DTree.node _ tb fb => leafSum tb + leafSum fb

/-- Every leaf of the tree holds a non-empty count mapping. -/
def leavesNe : DTree → Bool
  | DTree.leaf ps => !ps.isEmpty
  | DTree.node _ tb fb => leavesNe tb && leavesNe fb

/-- Candidate enumeration as the specification words it: every non-label
column paired with every distinct value of that column. -/
def candidates (df : Dataset) : List (String × Value) :=
  (df.cols.filter (fun c => !decide (c = "Model"))).flatMap
    (fun c => (unique_vals df c).map (fun v => (c, v)))

/-- One search step as the specification words it: form the candidate
question, partition, skip if a side is empty, otherwise replace the
tracked best exactly when the gain is greater than or equal to it. -/
def stepCandidate (df : Dataset) (cu : ℚ) (s : ℚ × Option Question)
    (cv : String × Value) : ℚ × Option Question :=
  if (partition df cv.1 cv.2).1.rows.length = 0 ∨ (partition df cv.1 cv.2).2.rows.length = 0 then s
  else if s.1 ≤ info_gain (partition df cv.1 cv.2).1.rows (partition df cv.1 cv.2).2.rows cu then
    (info_gain (partition df cv.1 cv.2).1.rows (partition df cv.1 cv.2).2.rows cu,
     some ⟨df, cv.1, cv.2⟩)
  else s

/-- Best-split search as the specification words it: a single left fold
of the search step over the flat candidate list, starting from gain 0
and no question. -/
def bestSplitSpec (df : Dataset) : ℚ × Option Question :=
  (candidates df).foldl (stepCandidate df (gini df.rows)) ((0 : ℚ), (none : Option Question))

/-- The four-row example dataset of the specification. -/
def d4 : Dataset :=
  ⟨["Shape", "Model"],
   [[("Shape", Value.cat "V"), ("Model", Value.cat "A")],
    [("Shape", Value.cat "V"), ("Model", Value.cat "A")],
    [("Shape", Value.cat "U"), ("Model", Value.cat "B")],
    [("Shape", Value.cat "U"), ("Model", Value.cat "B")]]⟩

/-- Two rows with one shared label and two distinct feature values. -/
def d2 : Dataset :=
  ⟨["X", "Model"],
   [[("X", Value.cat "a"), ("Model", Value.cat "M")],
    [("X", Value.cat "b"), ("Model", Value.cat "M")]]⟩

/-- A single-row dataset: every candidate split leaves a side empty. -/
def d1 : Dataset :=
  ⟨["X", "Model"],
   [[("X", Value.cat "a"), ("Model", Value.cat "M")]]⟩

/-- Two rows with two different labels. -/
def rowsAB : List Row :=
  [[("Model", Value.cat "A")], [("Model", Value.cat "B")]]

/-- The tree that build_tree produces on the example dataset d4. -/
def tree4 : DTree :=
  DTree.node ⟨d4, "Shape", Value.cat "U"⟩
    (DTree.leaf [(Value.cat "B", 2)]) (DTree.leaf [(Value.cat "A", 2)])

/-! Partition lemmas: the accumulating row loop is the pair of stable
filters, so sides are sublists whose interleave is the input. -/

theorem partLoop_eq (col : String) (val : Value) :
    ∀ (rows : List Row) (acc : List Row × List Row),
      partLoop col val rows acc =
        (acc.1 ++ rows.filter (pMatch col val),
         acc.2 ++ rows.filter (fun r => !(pMatch col val r))) := by
  intro rows
  induction rows with
  | nil => intro acc; simp [partLoop]
  | cons r rs ih =>
    intro acc
    cases h : pMatch col val r with
    | true => simp [partLoop, h, ih, List.filter_cons]
    | false => simp [partLoop, h, ih, List.filter_cons]

theorem partition_fst (df : Dataset) (col : String) (val : Value) :
    (partition df col val).1.rows = df.rows.filter (pMatch col val) := by
  simp [partition, partLoop_eq]

theorem partition_snd (df : Dataset) (col : String) (val : Value) :
    (partition df col val).2.rows = df.rows.filter (fun r => !(pMatch col val r)) := by
  simp [partition, partLoop_eq]

theorem partition_perm (df : Dataset) (col : String) (val : Value) :
    ((partition df col val).1.rows ++ (partition df col val).2.rows).Perm df.rows := by
  rw [partition_fst, partition_snd]
  exact List.filter_append_perm _ _

theorem partition_length (df : Dataset) (col : String) (val : Value) :
    (partition df col val).1.rows.length + (partition df col val).2.rows.length
      = df.rows.length := by
  have h := (partition_perm df col val).length_eq
  simpa [List.length_append] using h

/-! Lemmas on first-appearance deduplication. -/

theorem mem_dedupFirstAux :
    ∀ (l seen : List Value) (x : Value),
      x ∈ dedupFirstAux seen l ↔ x ∈ l ∧ x ∉ seen := by
  intro l
  induction l with
  | nil => intro seen x; simp [dedupFirstAux]
  | cons v vs ih =>
    intro seen x
    by_cases hv : v ∈ seen
    · rw [dedupFirstAux, if_pos hv, ih]
      simp only [List.mem_cons]
      constructor
      · rintro ⟨h1, h2⟩; exact ⟨Or.inr h1, h2⟩
      · rintro ⟨h1 | h1, h2⟩
        · exact absurd (h1 ▸ hv) h2
        · exact ⟨h1, h2⟩
    · rw [dedupFirstAux, if_neg hv]
      simp only [List.mem_cons, ih, List.mem_append, List.mem_singleton]
      by_cases hxv : x = v
      · subst hxv; tauto
      · tauto

theorem mem_dedupFirst (l : List Value) (x : Value) :
    x ∈ dedupFirst l ↔ x ∈ l := by
  rw [dedupFirst, mem_dedupFirstAux]
  simp

theorem nodup_dedupFirstAux : ∀ (l seen : List Value), (dedupFirstAux seen l).Nodup := by
  intro l
  induction l with
  | nil => intro seen; simp [dedupFirstAux]
  | cons v vs ih =>
    intro seen
    by_cases hv : v ∈ seen
    · rw [dedupFirstAux, if_pos hv]; exact ih seen
    · rw [dedupFirstAux, if_neg hv]
      refine List.Nodup.cons ?_ (ih _)
      intro hmem
      have h := (mem_dedupFirstAux _ _ _).mp hmem
      exact h.2 (by simp)

theorem nodup_dedupFirst (l : List Value) : (dedupFirst l).Nodup :=
  nodup_dedupFirstAux l []

theorem dedupFirstAux_concat :
    ∀ (l seen : List Value) (a : Value),
      dedupFirstAux seen (l ++ [a]) =
        dedupFirstAux seen l ++ (if a ∈ seen ∨ a ∈ l then [] else [a]) := by
  intro l
  induction l with
  | nil =>
    intro seen a
    by_cases h : a ∈ seen <;> simp [dedupFirstAux, h]
  | cons v vs ih =>
    intro seen a
    by_cases hv : v ∈ seen
    · have h2 : (a ∈ seen ∨ a ∈ vs) ↔ (a ∈ seen ∨ a ∈ v :: vs) := by
        simp only [List.mem_cons]
        constructor
        · rintro (h | h)
          · exact Or.inl h
          · exact Or.inr (Or.inr h)
        · rintro (h | rfl | h)
          · exact Or.inl h
          · exact Or.inl hv
          · exact Or.inr h
      rw [List.cons_append, dedupFirstAux, if_pos hv, dedupFirstAux, if_pos hv, ih]
      congr 1
      exact if_congr h2 rfl rfl
    · have h2 : (a ∈ seen ++ [v] ∨ a ∈ vs) ↔ (a ∈ seen ∨ a ∈ v :: vs) := by
        simp only [List.mem_append, List.mem_singleton, List.mem_cons]
        tauto
      rw [List.cons_append, dedupFirstAux, if_neg hv, dedupFirstAux, if_neg hv, ih,
        List.cons_append]
      congr 2
      exact if_congr h2 rfl rfl

theorem dedupFirst_concat (l : List Value) (a : Value) :
    dedupFirst (l ++ [a]) = dedupFirst l ++ (if a ∈ l then [] else [a]) := by
  rw [dedupFirst, dedupFirst, dedupFirstAux_concat]
  simp

theorem dedupFirstAux_eq_nil :
    ∀ (l seen : List Value), (∀ x ∈ l, x ∈ seen) → dedupFirstAux seen l = [] := by
  intro l
  induction l with
  | nil => intro seen _; rfl
  | cons v vs ih =>
    intro seen h
    rw [dedupFirstAux, if_pos (h v (by simp))]
    exact ih seen (fun x hx => h x (by simp [hx]))

theorem dedupFirst_pure (l : List Value) (a : Value) (h1 : l ≠ [])
    (h2 : ∀ x ∈ l, x = a) : dedupFirst l = [a] := by
  cases l with
  | nil => exact absurd rfl h1
  | cons v vs =>
    have hv : v = a := h2 v (by simp)
    subst hv
    rw [dedupFirst, dedupFirstAux, if_neg (by simp)]
    rw [dedupFirstAux_eq_nil vs _ (fun x hx => by simp [h2 x (by simp [hx])])]

/-! The closed form of class_counts: one entry per distinct label in
first-appearance order, carrying the full occurrence count. -/

theorem countOf_concat (rows : List Row) (r : Row) (l : Value) :
    countOf (rows ++ [r]) l = countOf rows l + (if labelOf r = l then 1 else 0) := by
  simp [countOf, List.countP_append, List.countP_cons]

theorem countOf_eq_zero (rows : List Row) (l : Value) (h : l ∉ rows.map labelOf) :
    countOf rows l = 0 := by
  rw [countOf, List.countP_eq_zero]
  intro r hr
  simp only [decide_eq_true_eq]
  intro he
  exact h (List.mem_map.mpr ⟨r, hr, he⟩)

theorem countOf_le_length (rows : List Row) (l : Value) :
    countOf rows l ≤ rows.length :=
  List.countP_le_length _

theorem countOf_eq_length (rows : List Row) (l : Value)
    (h : ∀ r ∈ rows, labelOf r = l) : countOf rows l = rows.length := by
  rw [countOf, List.countP_eq_length]
  intro r hr
  simp [h r hr]

theorem mapCongr {α β : Type _} (l : List α) (f g : α → β)
    (h : ∀ a ∈ l, f a = g a) : l.map f = l.map g := by
  induction l with
  | nil => rfl
  | cons x xs ih => simp_all

theorem class_counts_concat (rows : List Row) (r : Row) :
    class_counts (rows ++ [r]) = bump (class_counts rows) (labelOf r) := by
  simp [class_counts, List.foldl_append]

theorem class_counts_eq (rows : List Row) :
    class_counts rows
      = (dedupFirst (rows.map labelOf)).map (fun l => (l, countOf rows l)) := by
  induction rows using List.reverseRecOn with
  | nil => rfl
  | append_singleton rows r ih =>
    rw [class_counts_concat, ih, List.map_append, List.map_singleton, dedupFirst_concat]
    by_cases hmem : labelOf r ∈ rows.map labelOf
    · have hK : labelOf r ∈ dedupFirst (rows.map labelOf) :=
        (mem_dedupFirst _ _).mpr hmem
      have hany :
          ((dedupFirst (rows.map labelOf)).map (fun l => (l, countOf rows l))).any
            (fun p => decide (p.1 = labelOf r)) = true := by
        rw [List.any_eq_true]
        exact ⟨(labelOf r, countOf rows (labelOf r)),
          List.mem_map.mpr ⟨labelOf r, hK, rfl⟩, by simp⟩
      rw [bump, if_pos hany, if_pos hmem, List.append_nil, List.map_map]
      apply mapCongr
      intro l hl
      simp only [Function.comp_apply, countOf_concat]
      by_cases hel : l = labelOf r
      · simp [hel]
      · have hel2 : ¬(labelOf r = l) := fun h => hel h.symm
        simp [hel, hel2]
    · have hK : labelOf r ∉ dedupFirst (rows.map labelOf) := by
        rw [mem_dedupFirst]; exact hmem
      have hany :
          ((dedupFirst (rows.map labelOf)).map (fun l => (l, countOf rows l))).any
            (fun p => decide (p.1 = labelOf r)) = false := by
        rw [List.any_eq_false]
        intro p hp
        rcases List.mem_map.mp hp with ⟨l, hl, rfl⟩
        simp only [decide_eq_true_eq]
        intro he
        exact hK (he ▸ hl)
      rw [bump, if_neg (by simp [hany]), if_neg hmem, List.map_append, List.map_singleton]
      congr 1
      · apply mapCongr
        intro l hl
        have hne : ¬(labelOf r = l) := by
          intro he
          exact hK (he ▸ hl)
        simp [countOf_concat, hne]
      · have h0 : countOf rows (labelOf r) = 0 := countOf_eq_zero rows _ hmem
        simp [countOf_concat, h0]

theorem class_counts_ne_nil (rows : List Row) (h : rows ≠ []) :
    class_counts rows ≠ [] := by
  rw [class_counts_eq]
  cases rows with
  | nil => exact absurd rfl h
  | cons r rs =>
    intro hc
    have := List.map_eq_nil_iff.mp hc
    rw [List.map_cons, dedupFirst, dedupFirstAux, if_neg (by simp)] at this
    exact List.cons_ne_nil _ _ this

theorem class_counts_pure (rows : List Row) (a : Value) (h1 : rows ≠ [])
    (h2 : ∀ r ∈ rows, labelOf r = a) :
    class_counts rows = [(a, rows.length)] := by
  rw [class_counts_eq]
  have hlab : ∀ x ∈ rows.map labelOf, x = a := by
    intro x hx
    rcases List.mem_map.mp hx with ⟨r, hr, rfl⟩
    exact h2 r hr
  rw [dedupFirst_pure _ a (by simpa using h1) hlab, List.map_singleton,
    countOf_eq_length rows a h2]

/-! The gini value as a sum over the distinct labels. -/

theorem foldl_sub (h : Value × ℕ → ℚ) :
    ∀ (counts : List (Value × ℕ)) (x : ℚ),
      counts.foldl (fun imp p => imp - h p) x = x - (counts.map h).sum := by
  intro counts
  induction counts with
  | nil => intro x; simp
  | cons c cs ih =>
    intro x
    rw [List.foldl_cons, ih, List.map_cons, List.sum_cons]
    ring

theorem gini_eq_keys (rows : List Row) :
    gini rows =
      1 - ((dedupFirst (rows.map labelOf)).map
        (fun l => ((countOf rows l : ℚ) / (rows.length : ℚ)) ^ 2)).sum := by
  rw [gini, giniOfCounts, foldl_sub, class_counts_eq, List.map_map]
  rfl

theorem coverage_toFinset (rows : List Row) :
    ∀ r ∈ rows, labelOf r ∈ (rows.map labelOf).toFinset := by
  intro r hr
  rw [List.mem_toFinset]
  exact List.mem_map.mpr ⟨r, hr, rfl⟩

theorem gini_eq_finset (rows : List Row) (S : Finset Value)
    (hcov : ∀ r ∈ rows, labelOf r ∈ S) :
    gini rows = 1 - ∑ l ∈ S, ((countOf rows l : ℚ) / (rows.length : ℚ)) ^ 2 := by
  rw [gini_eq_keys]
  congr 1
  rw [← List.sum_toFinset _ (nodup_dedupFirst (rows.map labelOf))]
  apply Finset.sum_subset
  · intro x hx
    rw [List.mem_toFinset, mem_dedupFirst] at hx
    rcases List.mem_map.mp hx with ⟨r, hr, rfl⟩
    exact hcov r hr
  · intro x _ hxK
    have hx : x ∉ rows.map labelOf := by
      intro hmem
      exact hxK (by rw [List.mem_toFinset, mem_dedupFirst]; exact hmem)
    rw [countOf_eq_zero rows x hx]
    simp

theorem sum_countOf (rows : List Row) (S : Finset Value)
    (hcov : ∀ r ∈ rows, labelOf r ∈ S) :
    ∑ l ∈ S, countOf rows l = rows.length := by
  induction rows with
  | nil => simp [countOf]
  | cons r rs ih =>
    have h1 : ∀ l, countOf (r :: rs) l = countOf rs l + if labelOf r = l then 1 else 0 := by
      intro l
      simp [countOf, List.countP_cons]
    simp only [h1]
    rw [Finset.sum_add_distrib, ih (fun x hx => hcov x (List.mem_cons_of_mem _ hx))]
    rw [Finset.sum_ite_eq S (labelOf r) (fun _ => 1), if_pos (hcov r (by simp))]
    simp

theorem gini_nonneg (rows : List Row) (h : rows ≠ []) : 0 ≤ gini rows := by
  have hn : 0 < (rows.length : ℚ) := by
    exact_mod_cast List.length_pos.mpr h
  rw [gini_eq_finset rows _ (coverage_toFinset rows)]
  have hsum :
      ∑ l ∈ (rows.map labelOf).toFinset,
        ((countOf rows l : ℚ) / (rows.length : ℚ)) ^ 2 ≤ 1 := by
    calc ∑ l ∈ (rows.map labelOf).toFinset,
           ((countOf rows l : ℚ) / (rows.length : ℚ)) ^ 2
        ≤ ∑ l ∈ (rows.map labelOf).toFinset,
            (countOf rows l : ℚ) / (rows.length : ℚ) := by
          apply Finset.sum_le_sum
          intro l _
          have h0 : 0 ≤ (countOf rows l : ℚ) / (rows.length : ℚ) := by positivity
          have h1 : (countOf rows l : ℚ) / (rows.length : ℚ) ≤ 1 := by
            rw [div_le_one hn]
            exact_mod_cast countOf_le_length rows l
          nlinarith
      _ = (∑ l ∈ (rows.map labelOf).toFinset, (countOf rows l : ℚ))
            / (rows.length : ℚ) := by rw [Finset.sum_div]
      _ = 1 := by
          rw [← Nat.cast_sum, sum_countOf rows _ (coverage_toFinset rows)]
          exact div_self hn.ne'
  linarith

theorem gini_lt_one (rows : List Row) (h : rows ≠ []) : gini rows < 1 := by
  have hn : 0 < (rows.length : ℚ) := by
    exact_mod_cast List.length_pos.mpr h
  rw [gini_eq_finset rows _ (coverage_toFinset rows)]
  have hsum : 0 < ∑ l ∈ (rows.map labelOf).toFinset,
      ((countOf rows l : ℚ) / (rows.length : ℚ)) ^ 2 := by
    cases rows with
    | nil => exact absurd rfl h
    | cons r rs =>
      apply Finset.sum_pos'
      · intro l _
        positivity
      · refine ⟨labelOf r, coverage_toFinset _ r (by simp), ?_⟩
        have hc : 0 < countOf (r :: rs) (labelOf r) := by
          rw [countOf, List.countP_pos_iff]
          exact ⟨r, by simp, by simp⟩
        have hcq : 0 < (countOf (r :: rs) (labelOf r) : ℚ) := by exact_mod_cast hc
        positivity
  linarith

theorem gini_pure (rows : List Row) (a : Value) (h1 : rows ≠ [])
    (h2 : ∀ r ∈ rows, labelOf r = a) : gini rows = 0 := by
  have hn : ((rows.length : ℚ)) ≠ 0 := by
    have : 0 < (rows.length : ℚ) := by exact_mod_cast List.length_pos.mpr h1
    exact this.ne'
  rw [gini, class_counts_pure rows a h1 h2, giniOfCounts, List.foldl_cons, List.foldl_nil,
    div_self hn]
  norm_num

theorem class_counts_sum (rows : List Row) :
    ((class_counts rows).map (fun p => p.2)).sum = rows.length := by
  rw [class_counts_eq, List.map_map]
  have h1 : ((fun p => p.2) ∘ fun l => (l, countOf rows l)) = countOf rows := rfl
  rw [h1, ← List.sum_toFinset _ (nodup_dedupFirst (rows.map labelOf))]
  have h2 : (dedupFirst (rows.map labelOf)).toFinset = (rows.map labelOf).toFinset := by
    ext x
    simp [List.mem_toFinset, mem_dedupFirst]
  rw [h2]
  exact sum_countOf rows _ (coverage_toFinset rows)

theorem foldlM_ok (cond : Prop) [Decidable cond] (hc : ¬cond)
    (f : ℚ → Value × ℕ → ℚ) (msg : String) :
    ∀ (counts : List (Value × ℕ)) (x : ℚ),
      counts.foldlM (fun imp p => if cond then Except.error msg else Except.ok (f imp p)) x
        = Except.ok (counts.foldl f x) := by
  intro counts
  induction counts with
  | nil => intro x; rfl
  | cons c cs ih =>
    intro x
    rw [List.foldlM_cons, if_neg hc, List.foldl_cons]
    exact ih (f x c)

theorem giniE_ok (rows : List Row) : giniE rows = Except.ok (gini rows) := by
  cases rows with
  | nil => rfl
  | cons r rs =>
    have hn : ¬((r :: rs).length = 0) := by simp
    rw [giniE, gini, giniOfCounts]
    exact foldlM_ok _ hn _ _ _ _

/-! Invariants of the best-split search fold. -/

theorem foldlInv {σ α : Type _} (P : σ → Prop) (g : σ → α → σ)
    (h : ∀ s a, P s → P (g s a)) :
    ∀ (l : List α) (s : σ), P s → P (l.foldl g s) := by
  intro l
  induction l with
  | nil => intro s hs; exact hs
  | cons a as ih => intro s hs; exact ih _ (h s a hs)

/-- The state invariant of the search: a missing question forces gain 0,
and any tracked question splits the dataset into two non-empty sides. -/
def GoodState (df : Dataset) (s : ℚ × Option Question) : Prop :=
  (s.2 = none → s.1 = 0) ∧
  ∀ q, s.2 = some q →
    (partition df q.col q.value).1.rows ≠ [] ∧ (partition df q.col q.value).2.rows ≠ []

theorem scanVal_good (df : Dataset) (cu : ℚ) (col : String) (s : ℚ × Option Question)
    (val : Value) (hs : GoodState df s) : GoodState df (scanVal df cu col s val) := by
  rw [scanVal]
  by_cases h1 : (partition df col val).1.rows.length = 0 ∨ (partition df col val).2.rows.length = 0
  · rw [if_pos h1]; exact hs
  · rw [if_neg h1]
    push_neg at h1
    by_cases h2 : s.1 ≤ info_gain (partition df col val).1.rows (partition df col val).2.rows cu
    · rw [if_pos h2]
      constructor
      · intro h; simp at h
      · intro q hq
        simp only [Option.some.injEq] at hq
        subst hq
        exact ⟨fun hnil => h1.1 (by rw [hnil]; rfl),
               fun hnil => h1.2 (by rw [hnil]; rfl)⟩
    · rw [if_neg h2]; exact hs

theorem scanCol_good (df : Dataset) (cu : ℚ) (s : ℚ × Option Question) (col : String)
    (hs : GoodState df s) : GoodState df (scanCol df cu s col) := by
  rw [scanCol]
  by_cases h : col = "Model"
  · rw [if_pos h]; exact hs
  · rw [if_neg h]
    exact foldlInv _ _ (fun s v hsv => scanVal_good df cu col s v hsv) _ s hs

theorem find_best_split_good (df : Dataset) : GoodState df (find_best_split df) := by
  rw [find_best_split]
  apply foldlInv _ _ (fun s c hsc => scanCol_good df _ s c hsc)
  refine ⟨fun _ => rfl, fun q hq => ?_⟩
  cases hq

theorem fbs_none_gain (df : Dataset) :
    (find_best_split df).2 = none → (find_best_split df).1 = 0 :=
  (find_best_split_good df).1

theorem fbs_some_parts (df : Dataset) (q : Question) :
    (find_best_split df).2 = some q →
      (partition df q.col q.value).1.rows ≠ [] ∧ (partition df q.col q.value).2.rows ≠ [] :=
  (find_best_split_good df).2 q

/-! On a single-label dataset every scored candidate has gain 0, so the
search returns gain 0. -/

theorem filter_pure (rows : List Row) (a : Value) (h : ∀ r ∈ rows, labelOf r = a)
    (p : Row → Bool) : ∀ r ∈ rows.filter p, labelOf r = a := by
  intro r hr
  exact h r (List.mem_of_mem_filter hr)

theorem scanVal_pure (df : Dataset) (a : Value) (hpure : ∀ r ∈ df.rows, labelOf r = a)
    (col : String) (val : Value) (s : ℚ × Option Question) (hs : s.1 = 0) :
    (scanVal df (gini df.rows) col s val).1 = 0 := by
  rw [scanVal]
  by_cases h1 : (partition df col val).1.rows.length = 0 ∨ (partition df col val).2.rows.length = 0
  · rw [if_pos h1]; exact hs
  · rw [if_neg h1]
    push_neg at h1
    have hne1 : (partition df col val).1.rows ≠ [] :=
      fun hnil => h1.1 (by rw [hnil]; rfl)
    have hne2 : (partition df col val).2.rows ≠ [] :=
      fun hnil => h1.2 (by rw [hnil]; rfl)
    have hdfne : df.rows ≠ [] := by
      intro hnil
      apply hne1
      rw [partition_fst, hnil]
      rfl
    have hg1 : gini (partition df col val).1.rows = 0 := by
      apply gini_pure _ a hne1
      rw [partition_fst]
      exact filter_pure df.rows a hpure _
    have hg2 : gini (partition df col val).2.rows = 0 := by
      apply gini_pure _ a hne2
      rw [partition_snd]
      exact filter_pure df.rows a hpure _
    have hcu : gini df.rows = 0 := gini_pure df.rows a hdfne hpure
    have hgain :
        info_gain (partition df col val).1.rows (partition df col val).2.rows
          (gini df.rows) = 0 := by
      rw [info_gain, hg1, hg2, hcu]
      ring
    by_cases h2 : s.1 ≤ info_gain (partition df col val).1.rows (partition df col val).2.rows
        (gini df.rows)
    · rw [if_pos h2]
      exact hgain
    · rw [if_neg h2]; exact hs

theorem find_best_split_pure (df : Dataset) (a : Value)
    (hpure : ∀ r ∈ df.rows, labelOf r = a) : (find_best_split df).1 = 0 := by
  rw [find_best_split]
  refine foldlInv (fun s => s.1 = 0) (scanCol df (gini df.rows)) ?_ df.cols
    ((0 : ℚ), (none : Option Question)) rfl
  intro s col hs
  rw [scanCol]
  by_cases h : col = "Model"
  · rw [if_pos h]; exact hs
  · rw [if_neg h]
    exact foldlInv _ _ (fun s v hsv => scanVal_pure df a hpure col v s hsv) _ s hs

/-! Termination: any tracked question strictly shrinks both sides. -/

theorem build_tree_fuel_isSome :
    ∀ (n : ℕ) (df : Dataset), df.rows.length < n → (build_tree_fuel n df).isSome = true := by
  intro n
  induction n with
  | zero => intro df h; omega
  | succ n ih =>
    intro df h
    simp only [build_tree_fuel]
    by_cases h0 : (find_best_split df).1 = 0
    · rw [if_pos h0]; rfl
    · rw [if_neg h0]
      cases hq : (find_best_split df).2 with
      | none => exact absurd (fbs_none_gain df hq) h0
      | some q =>
        obtain ⟨hne1, hne2⟩ := fbs_some_parts df q hq
        have hlen := partition_length df q.col q.value
        have l1 := List.length_pos.mpr hne1
        have l2 := List.length_pos.mpr hne2
        have hs1 := ih (partition df q.col q.value).1 (by omega)
        have hs2 := ih (partition df q.col q.value).2 (by omega)
        obtain ⟨tb, htb⟩ := Option.isSome_iff_exists.mp hs1
        obtain ⟨fb, hfb⟩ := Option.isSome_iff_exists.mp hs2
        show (match build_tree_fuel n (partition df q.col q.value).1,
                    build_tree_fuel n (partition df q.col q.value).2 with
              | some tb, some fb => some (DTree.node q tb fb)
              | _, _ => none).isSome = true
        rw [htb, hfb]
        rfl

theorem build_tree_isSome (df : Dataset) : (build_tree df).isSome = true :=
  build_tree_fuel_isSome _ df (Nat.lt_succ_self _)

/-! Structure of the built tree: non-empty leaves whose counts sum to
the number of rows. -/

theorem bt_props :
    ∀ (n : ℕ) (df : Dataset) (t : DTree), df.rows.length < n → df.rows ≠ [] →
      build_tree_fuel n df = some t →
      leavesNe t = true ∧ leafSum t = df.rows.length := by
  intro n
  induction n with
  | zero => intro df t h _ _; omega
  | succ n ih =>
    intro df t hlen hne hbt
    simp only [build_tree_fuel] at hbt
    by_cases h0 : (find_best_split df).1 = 0
    · rw [if_pos h0] at hbt
      injection hbt with hbt
      subst hbt
      constructor
      · have hcc := class_counts_ne_nil df.rows hne
        simp [leavesNe, List.isEmpty_iff, hcc]
      · simp [leafSum, class_counts_sum]
    · rw [if_neg h0] at hbt
      cases hq : (find_best_split df).2 with
      | none =>
        rw [hq] at hbt
        cases hbt
      | some q =>
        rw [hq] at hbt
        have hbt2 :
            (match build_tree_fuel n (partition df q.col q.value).1,
                   build_tree_fuel n (partition df q.col q.value).2 with
             | some tb, some fb => some (DTree.node q tb fb)
             | _, _ => none) = some t := hbt
        obtain ⟨hne1, hne2⟩ := fbs_some_parts df q hq
        have hplen := partition_length df q.col q.value
        have l1 := List.length_pos.mpr hne1
        have l2 := List.length_pos.mpr hne2
        cases htb : build_tree_fuel n (partition df q.col q.value).1 with
        | none => rw [htb] at hbt2; cases hbt2
        | some tb =>
          cases hfb : build_tree_fuel n (partition df q.col q.value).2 with
          | none => rw [htb, hfb] at hbt2; cases hbt2
          | some fb =>
            rw [htb, hfb] at hbt2
            injection hbt2 with hbt2
            subst hbt2
            have ih1 := ih _ tb (by omega) hne1 htb
            have ih2 := ih _ fb (by omega) hne2 hfb
            constructor
            · simp [leavesNe, ih1.1, ih2.1]
            · simp only [leafSum, ih1.2, ih2.2]
              omega

/-! The nested column/value loops equal one flat fold over the
candidate list. -/

theorem foldl_cols_eq (df : Dataset) (cu : ℚ) :
    ∀ (cols : List String) (s : ℚ × Option Question),
      cols.foldl (scanCol df cu) s =
        ((cols.filter (fun c => !decide (c = "Model"))).flatMap
          (fun c => (unique_vals df c).map (fun v => (c, v)))).foldl
          (stepCandidate df cu) s := by
  intro cols
  induction cols with
  | nil => intro s; rfl
  | cons c cs ih =>
    intro s
    by_cases h : c = "Model"
    · have hb : (!decide (c = "Model")) = false := by simp [h]
      rw [List.foldl_cons, List.filter_cons, hb, if_neg (by simp), scanCol, if_pos h]
      exact ih s
    · have hb : (!decide (c = "Model")) = true := by simp [h]
      rw [List.foldl_cons, List.filter_cons, hb, if_pos rfl, List.flatMap_cons,
        List.foldl_append, List.foldl_map, scanCol, if_neg h]
      exact ih _

theorem find_best_split_eq_spec (df : Dataset) :
    find_best_split df = bestSplitSpec df := by
  rw [find_best_split, bestSplitSpec, candidates]
  exact foldl_cols_eq df (gini df.rows) df.cols _

/-! Gini gain is non-negative: the Cauchy-Schwarz step per label. -/

theorem perLabel (a b nL nR : ℚ) (hL : 0 < nL) (hR : 0 < nR) :
    ((a + b) / (nL + nR)) ^ 2 ≤
      nL / (nL + nR) * (a / nL) ^ 2 + nR / (nL + nR) * (b / nR) ^ 2 := by
  have hn : 0 < nL + nR := by linarith
  have e : nL / (nL + nR) * (a / nL) ^ 2 + nR / (nL + nR) * (b / nR) ^ 2
      - ((a + b) / (nL + nR)) ^ 2
      = (a * nR - b * nL) ^ 2 / (nL * nR * (nL + nR) ^ 2) := by
    field_simp
    ring
  have hpos : 0 ≤ (a * nR - b * nL) ^ 2 / (nL * nR * (nL + nR) ^ 2) := by positivity
  linarith

theorem countOf_append (L R : List Row) (l : Value) :
    countOf (L ++ R) l = countOf L l + countOf R l := by
  simp [countOf, List.countP_append]

theorem length_append_cast (L R : List Row) :
    (((L ++ R).length : ℕ) : ℚ) = (L.length : ℚ) + (R.length : ℚ) := by
  push_cast [List.length_append]
  ring

theorem gain_nonneg (L R : List Row) (hL : L ≠ []) (hR : R ≠ []) :
    0 ≤ info_gain L R (gini (L ++ R)) := by
  have covL : ∀ r ∈ L, labelOf r ∈ ((L ++ R).map labelOf).toFinset := fun r hr =>
    coverage_toFinset (L ++ R) r (List.mem_append_left _ hr)
  have covR : ∀ r ∈ R, labelOf r ∈ ((L ++ R).map labelOf).toFinset := fun r hr =>
    coverage_toFinset (L ++ R) r (List.mem_append_right _ hr)
  have hnL : 0 < (L.length : ℚ) := by exact_mod_cast List.length_pos.mpr hL
  have hnR : 0 < (R.length : ℚ) := by exact_mod_cast List.length_pos.mpr hR
  rw [info_gain, gini_eq_finset L _ covL, gini_eq_finset R _ covR,
    gini_eq_finset (L ++ R) _ (coverage_toFinset (L ++ R))]
  have key : ∑ l ∈ ((L ++ R).map labelOf).toFinset,
        ((countOf (L ++ R) l : ℚ) / ((L ++ R).length : ℚ)) ^ 2
      ≤ (L.length : ℚ) / ((L.length : ℚ) + (R.length : ℚ))
          * ∑ l ∈ ((L ++ R).map labelOf).toFinset,
              ((countOf L l : ℚ) / (L.length : ℚ)) ^ 2
        + (R.length : ℚ) / ((L.length : ℚ) + (R.length : ℚ))
          * ∑ l ∈ ((L ++ R).map labelOf).toFinset,
              ((countOf R l : ℚ) / (R.length : ℚ)) ^ 2 := by
    rw [Finset.mul_sum, Finset.mul_sum, ← Finset.sum_add_distrib]
    apply Finset.sum_le_sum
    intro l _
    rw [countOf_append, length_append_cast]
    push_cast
    exact perLabel _ _ _ _ hnL hnR
  have hp : 1 - (L.length : ℚ) / ((L.length : ℚ) + (R.length : ℚ))
      = (R.length : ℚ) / ((L.length : ℚ) + (R.length : ℚ)) := by
    field_simp
  rw [hp]
  set A := ∑ l ∈ ((L ++ R).map labelOf).toFinset,
    ((countOf (L ++ R) l : ℚ) / ((L ++ R).length : ℚ)) ^ 2 with hA
  set B := ∑ l ∈ ((L ++ R).map labelOf).toFinset,
    ((countOf L l : ℚ) / (L.length : ℚ)) ^ 2 with hB
  set C := ∑ l ∈ ((L ++ R).map labelOf).toFinset,
    ((countOf R l : ℚ) / (R.length : ℚ)) ^ 2 with hC
  set p := (L.length : ℚ) / ((L.length : ℚ) + (R.length : ℚ)) with hpdef
  set pr := (R.length : ℚ) / ((L.length : ℚ) + (R.length : ℚ)) with hprdef
  have hsum1 : p + pr = 1 := by
    rw [hpdef, hprdef, div_add_div_same, div_self (by linarith)]
  have expand : (1 - A) - p * (1 - B) - pr * (1 - C)
      = (p * B + pr * C - A) + (1 - p - pr) := by ring
  rw [expand]
  have h1 : 1 - p - pr = 0 := by linarith
  linarith [key]

theorem gain_zero_same_dist (L R : List Row) (hL : L ≠ []) (hR : R ≠ [])
    (hd : ∀ l, (countOf L l : ℚ) / (L.length : ℚ) = (countOf R l : ℚ) / (R.length : ℚ)) :
    info_gain L R (gini (L ++ R)) = 0 := by
  have covL : ∀ r ∈ L, labelOf r ∈ ((L ++ R).map labelOf).toFinset := fun r hr =>
    coverage_toFinset (L ++ R) r (List.mem_append_left _ hr)
  have covR : ∀ r ∈ R, labelOf r ∈ ((L ++ R).map labelOf).toFinset := fun r hr =>
    coverage_toFinset (L ++ R) r (List.mem_append_right _ hr)
  have hnL : 0 < (L.length : ℚ) := by exact_mod_cast List.length_pos.mpr hL
  have hnR : 0 < (R.length : ℚ) := by exact_mod_cast List.length_pos.mpr hR
  have hPL : ∀ l, ((countOf (L ++ R) l : ℚ) / ((L ++ R).length : ℚ)) ^ 2
      = ((countOf L l : ℚ) / (L.length : ℚ)) ^ 2 := by
    intro l
    rw [countOf_append, length_append_cast]
    push_cast
    congr 1
    have h := hd l
    rw [div_eq_div_iff hnL.ne' hnR.ne'] at h
    rw [div_eq_div_iff (by positivity) hnL.ne']
    linarith
  have hPR : ∀ l, ((countOf (L ++ R) l : ℚ) / ((L ++ R).length : ℚ)) ^ 2
      = ((countOf R l : ℚ) / (R.length : ℚ)) ^ 2 := by
    intro l
    rw [countOf_append, length_append_cast]
    push_cast
    congr 1
    have h := hd l
    rw [div_eq_div_iff hnL.ne' hnR.ne'] at h
    rw [div_eq_div_iff (by positivity) hnR.ne']
    linarith
  have hGL : gini L = gini (L ++ R) := by
    rw [gini_eq_finset L _ covL, gini_eq_finset (L ++ R) _ (coverage_toFinset (L ++ R))]
    congr 1
    apply Finset.sum_congr rfl
    intro l _
    rw [hPL l]
  have hGR : gini R = gini (L ++ R) := by
    rw [gini_eq_finset R _ covR, gini_eq_finset (L ++ R) _ (coverage_toFinset (L ++ R))]
    congr 1
    apply Finset.sum_congr rfl
    intro l _
    rw [hPR l]
  rw [info_gain, hGL, hGR]
  ring

/-! The claim theorems. -/

/-- Claim C1 counterexample: on the four-row example dataset the best
gain returned by find_best_split is 1/2, not the claimed 1.0. -/
theorem claim1_counterexample :
    (find_best_split d4).1 = 1/2 ∧ ¬((find_best_split d4).1 = 1) := by
  with_unfolding_all decide

/-- Claim C1 amended: on the four-row example dataset find_best_split
returns best gain 1/2 with the question Shape == U (the later scored of
the two tying candidates Shape == V and Shape == U), and build_tree
returns a Decision node whose two children are pure leaves counting B
twice (true branch) and A twice (false branch). -/
theorem claim1_amended :
    find_best_split d4 = (1/2, some ⟨d4, "Shape", Value.cat "U"⟩) ∧
    build_tree d4 = some (DTree.node ⟨d4, "Shape", Value.cat "U"⟩
      (DTree.leaf [(Value.cat "B", 2)]) (DTree.leaf [(Value.cat "A", 2)])) := by
  with_unfolding_all decide

/-- Claim C2 counterexample: on a two-row dataset with one shared label
and two feature values, find_best_split returns best gain 0 together
with a question, because a scored zero-gain candidate passes the
greater-or-equal test and replaces the initial none; this refutes that
a returned gain of 0 forces the returned question to be none. -/
theorem claim2_counterexample :
    (find_best_split d2).1 = 0 ∧ ¬((find_best_split d2).2 = none) := by
  with_unfolding_all decide

/-- Claim C2 amended: find_best_split returns the pair of best gain and
best question, and whenever the returned best question is none the
returned best gain is 0 (the converse fails, per the counterexample). -/
theorem claim2_amended (df : Dataset) (h : (find_best_split df).2 = none) :
    (find_best_split df).1 = 0 :=
  fbs_none_gain df h

/-- Witness for amended claim C2 at the one-row dataset, where every
candidate split leaves one side empty and the question stays none. -/
theorem claim2_amended_witness : (find_best_split d1).1 = 0 :=
  claim2_amended d1 (by with_unfolding_all decide)

/-- Claim C3 counterexample: gini on a dataset with zero rows does not
fail with a division error: the counts mapping is empty, so the loop
body holding the division never runs and impurity 1 is returned. -/
theorem claim3_counterexample :
    giniE ([] : List Row) = Except.ok 1 ∧ gini ([] : List Row) = 1 :=
  ⟨rfl, rfl⟩

/-- Claim C3 amended: gini never raises its division (on zero rows the
loop never runs and it returns 1); and the gini calls made through
info_gain inside find_best_split see only non-empty row sets, because a
candidate with an empty partition side is skipped without scoring and
any returned question has two non-empty partitions. -/
theorem claim3_amended :
    (∀ rows : List Row, giniE rows = Except.ok (gini rows)) ∧
    (∀ (df : Dataset) (cu : ℚ) (col : String) (val : Value) (s : ℚ × Option Question),
      ((partition df col val).1.rows = [] ∨ (partition df col val).2.rows = []) →
        scanVal df cu col s val = s) ∧
    (∀ (df : Dataset) (q : Question), (find_best_split df).2 = some q →
      (partition df q.col q.value).1.rows ≠ [] ∧
      (partition df q.col q.value).2.rows ≠ []) := by
  refine ⟨giniE_ok, ?_, fbs_some_parts⟩
  intro df cu col val s h
  have hlen : (partition df col val).1.rows.length = 0 ∨
      (partition df col val).2.rows.length = 0 := by
    rcases h with h | h
    · exact Or.inl (by rw [h]; rfl)
    · exact Or.inr (by rw [h]; rfl)
  rw [scanVal, if_pos hlen]

/-- Witness for amended claim C3: gini on a one-row dataset computed
without error, a candidate with an empty false side left unscored, and
the non-empty partitions of the question returned on the example. -/
theorem claim3_amended_witness :
    giniE d1.rows = Except.ok (gini d1.rows) ∧
    scanVal d1 0 "X" ((0 : ℚ), (none : Option Question)) (Value.cat "a")
      = ((0 : ℚ), (none : Option Question)) ∧
    ((partition d4 "Shape" (Value.cat "U")).1.rows ≠ [] ∧
     (partition d4 "Shape" (Value.cat "U")).2.rows ≠ []) :=
  ⟨claim3_amended.1 d1.rows,
   claim3_amended.2.1 d1 0 "X" (Value.cat "a") ((0 : ℚ), (none : Option Question))
     (by with_unfolding_all decide),
   claim3_amended.2.2 d4 ⟨d4, "Shape", Value.cat "U"⟩ (by with_unfolding_all decide)⟩

/-- Claim C4: build_tree terminates on every dataset (a recursion
budget of one more than the row count always yields a tree), because
whenever find_best_split returns a positive gain with its question,
that question partitions the dataset into two non-empty and hence
strictly smaller subsets, and a gain of 0 produces a leaf. -/
theorem claim4_termination :
    (∀ df : Dataset, (build_tree df).isSome = true) ∧
    (∀ (df : Dataset) (g : ℚ) (q : Question),
      find_best_split df = (g, some q) → 0 < g →
        (partition df q.col q.value).1.rows ≠ [] ∧
        (partition df q.col q.value).2.rows ≠ [] ∧
        (partition df q.col q.value).1.rows.length < df.rows.length ∧
        (partition df q.col q.value).2.rows.length < df.rows.length) := by
  refine ⟨build_tree_isSome, ?_⟩
  intro df g q hfbs _
  have hq : (find_best_split df).2 = some q := by rw [hfbs]
  obtain ⟨h1, h2⟩ := fbs_some_parts df q hq
  have hlen := partition_length df q.col q.value
  have l1 := List.length_pos.mpr h1
  have l2 := List.length_pos.mpr h2
  exact ⟨h1, h2, by omega, by omega⟩

/-- Witness for claim C4 at the example dataset and its returned
question Shape == U with gain 1/2. -/
theorem claim4_termination_witness :
    (build_tree d4).isSome = true ∧
    ((partition d4 "Shape" (Value.cat "U")).1.rows ≠ [] ∧
     (partition d4 "Shape" (Value.cat "U")).2.rows ≠ [] ∧
     (partition d4 "Shape" (Value.cat "U")).1.rows.length < d4.rows.length ∧
     (partition d4 "Shape" (Value.cat "U")).2.rows.length < d4.rows.length) :=
  ⟨claim4_termination.1 d4,
   claim4_termination.2 d4 (1/2) ⟨d4, "Shape", Value.cat "U"⟩
     (by with_unfolding_all decide) (by with_unfolding_all decide)⟩

/-- Claim C5: the nested loops of find_best_split equal one flat fold
over the full candidate list made of every non-label column paired with
every distinct value of that column, a fold that skips any candidate
with an empty side and replaces the tracked best exactly when the gain
is greater than or equal to the running best; consequently, on the
example dataset, of the two equally good candidates Shape == V and
Shape == U, the last one enumerated, Shape == U, wins. -/
theorem claim5_enumeration :
    (∀ df : Dataset, find_best_split df = bestSplitSpec df) ∧
    (find_best_split d4).2 = some ⟨d4, "Shape", Value.cat "U"⟩ :=
  ⟨find_best_split_eq_spec, by with_unfolding_all decide⟩

/-- Claim C6: partition returns two datasets whose row counts sum to
the original count; each side is the stable filter of the matching or
non-matching rows, hence a sublist that preserves the original relative
order, and together the two sides interleave by original position back
to the input rows (their concatenation is a permutation of the input);
the embedding is pure, so the input dataset is never mutated, and both
outputs carry the original column list. -/
theorem claim6_partition (df : Dataset) (col : String) (val : Value) :
    (partition df col val).1.rows.length + (partition df col val).2.rows.length
        = df.rows.length ∧
    (partition df col val).1.rows = df.rows.filter (pMatch col val) ∧
    (partition df col val).2.rows = df.rows.filter (fun r => !(pMatch col val r)) ∧
    (partition df col val).1.rows.Sublist df.rows ∧
    (partition df col val).2.rows.Sublist df.rows ∧
    ((partition df col val).1.rows ++ (partition df col val).2.rows).Perm df.rows ∧
    (partition df col val).1.cols = df.cols ∧ (partition df col val).2.cols = df.cols := by
  refine ⟨partition_length df col val, partition_fst df col val, partition_snd df col val,
    ?_, ?_, partition_perm df col val, rfl, rfl⟩
  · rw [partition_fst]
    exact List.filter_sublist _
  · rw [partition_snd]
    exact List.filter_sublist _

/-- Claim C7: for a non-empty dataset, gini equals one minus the sum
over the distinct label values of the squared label frequency, lies in
the interval from 0 inclusive to 1 exclusive, and equals 0 on every
non-empty dataset whose rows all share one label. -/
theorem claim7_gini (rows : List Row) (h : rows ≠ []) :
    gini rows = 1 - ∑ l ∈ (rows.map labelOf).toFinset,
        ((countOf rows l : ℚ) / (rows.length : ℚ)) ^ 2 ∧
    0 ≤ gini rows ∧ gini rows < 1 ∧
    (∀ a : Value, (∀ r ∈ rows, labelOf r = a) → gini rows = 0) :=
  ⟨gini_eq_finset rows _ (coverage_toFinset rows), gini_nonneg rows h,
   gini_lt_one rows h, fun a ha => gini_pure rows a h ha⟩

/-- Witness for claim C7 on the two-row single-label dataset. -/
theorem claim7_gini_witness : 0 ≤ gini d2.rows ∧ gini d2.rows = 0 :=
  ⟨(claim7_gini d2.rows (by with_unfolding_all decide)).2.1,
   (claim7_gini d2.rows (by with_unfolding_all decide)).2.2.2 (Value.cat "M")
     (by with_unfolding_all decide)⟩

/-- Claim C8: with the parent impurity computed as the gini of the
concatenated children, information gain is non-negative whenever the
split puts two differently labeled rows on opposite sides (it is in
fact non-negative for every non-empty split), and is exactly 0 when the
two children carry the same label distribution as each other. -/
theorem claim8_gain (L R : List Row) (hL : L ≠ []) (hR : R ≠ [])
    (cu : ℚ) (hcu : cu = gini (L ++ R)) :
    ((∃ r1 ∈ L, ∃ r2 ∈ R, labelOf r1 ≠ labelOf r2) → 0 ≤ info_gain L R cu) ∧
    ((∀ l : Value, (countOf L l : ℚ) / (L.length : ℚ)
        = (countOf R l : ℚ) / (R.length : ℚ)) → info_gain L R cu = 0) := by
  subst hcu
  exact ⟨fun _ => gain_nonneg L R hL hR, fun hd => gain_zero_same_dist L R hL hR hd⟩

/-- Witness for claim C8 splitting the two-label rows into two equal
halves: the gain is defined, non-negative and exactly 0. -/
theorem claim8_gain_witness :
    0 ≤ info_gain rowsAB rowsAB (gini (rowsAB ++ rowsAB)) ∧
    info_gain rowsAB rowsAB (gini (rowsAB ++ rowsAB)) = 0 := by
  have h := claim8_gain rowsAB rowsAB (by with_unfolding_all decide)
    (by with_unfolding_all decide) _ rfl
  refine ⟨h.1 ?_, h.2 (fun l => rfl)⟩
  exact ⟨[("Model", Value.cat "A")], by with_unfolding_all decide,
         [("Model", Value.cat "B")], by with_unfolding_all decide,
         by with_unfolding_all decide⟩

/-- Claim C9: on a non-empty dataset whose rows all carry one label,
every candidate gain is 0, so build_tree returns a single leaf whose
predictions mapping has exactly one entry counting all rows. -/
theorem claim9_single_label (df : Dataset) (a : Value) (h1 : df.rows ≠ [])
    (h2 : ∀ r ∈ df.rows, labelOf r = a) :
    build_tree df = some (DTree.leaf [(a, df.rows.length)]) := by
  rw [build_tree]
  simp only [build_tree_fuel]
  rw [if_pos (find_best_split_pure df a h2), class_counts_pure df.rows a h1 h2]

/-- Witness for claim C9 on the two-row single-label dataset with two
distinct feature values. -/
theorem claim9_single_label_witness :
    build_tree d2 = some (DTree.leaf [(Value.cat "M", 2)]) :=
  claim9_single_label d2 (Value.cat "M") (by with_unfolding_all decide)
    (by with_unfolding_all decide)

/-- Claim C10: any tree build_tree returns on a non-empty dataset has
only non-empty leaf prediction mappings, and the leaf counts over the
whole tree sum to the row count of the input dataset. -/
theorem claim10_invariant (df : Dataset) (h : df.rows ≠ []) :
    ∀ t : DTree, build_tree df = some t →
      leavesNe t = true ∧ leafSum t = df.rows.length := by
  intro t ht
  exact bt_props (df.rows.length + 1) df t (Nat.lt_succ_self _) h ht

/-- Witness for claim C10 at the example dataset and its tree. -/
theorem claim10_invariant_witness :
    leavesNe tree4 = true ∧ leafSum tree4 = d4.rows.length :=
  claim10_invariant d4 (by with_unfolding_all decide) tree4
    (by with_unfolding_all decide)
